import Mathlib

/-!
Shallow embedding of the MTDetection corpus-extraction scripts
(`extract_corpus.py`, `main.py`, `reverse.py`, `separatoredjson.py`).
Text is modelled as `List Char`; Python regular-expression operations are
embedded as explicit scanning functions on character lists.
-/

namespace MTDetection

/-- Text is a list of characters (Python `str`, code points). -/
abbrev Str := List Char

/-- Whitespace class used by Python `str.strip` and the regex class `\s`
(Unicode whitespace). -/
def isPySpace (c : Char) : Bool :=
  c = ' ' || c = '\t' || c = '\n' || c = '\r' || c = '\u000B' || c = '\u000C' ||
  (0x1C ≤ c.toNat && c.toNat ≤ 0x1F) ||
  c = '\u0085' || c = '\u00A0' || c = '\u1680' ||
  (0x2000 ≤ c.toNat && c.toNat ≤ 0x200A) ||
  c = '\u2028' || c = '\u2029' || c = '\u202F' || c = '\u205F' || c = '\u3000'

/-- Python `str.strip()`: drop leading and trailing whitespace. -/
def strip (l : Str) : Str :=
  ((l.dropWhile isPySpace).reverse.dropWhile isPySpace).reverse

/-- Character ranges of `is_japanese` in `extract_corpus.py` line 15:
Hiragana U+3040-U+309F, Katakana U+30A0-U+30FF, CJK Unified U+4E00-U+9FFF. -/
def isJPChar (c : Char) : Bool :=
  (0x3040 ≤ c.toNat && c.toNat ≤ 0x309F) ||
  (0x30A0 ≤ c.toNat && c.toNat ≤ 0x30FF) ||
  (0x4E00 ≤ c.toNat && c.toNat ≤ 0x9FFF)

/-- `is_japanese` (extract_corpus.py lines 13-15): the text contains at least
one character in the Japanese script ranges. -/
def is_japanese (l : Str) : Bool := l.any isJPChar

/-- The scan of `re.sub(r'&#\d{4}', '', text)` (extract_corpus.py line 20):
remove every non-overlapping occurrence of `&#` followed by four digits,
scanning left to right.  ASCII digits stand in for the regex digit class. -/
def removeNCR : Str → Str
  | [] => []
  | '&' :: '#' :: a :: b :: c :: d :: rest =>
    if a.isDigit && b.isDigit && c.isDigit && d.isDigit then removeNCR rest
    else '&' :: removeNCR ('#' :: a :: b :: c :: d :: rest)
  | c :: rest => c :: removeNCR rest

/-- `clean_text` (extract_corpus.py lines 17-23): remove the numeric
character-reference markers, then strip surrounding whitespace. -/
def clean_text (l : Str) : Str := strip (removeNCR l)

/-- Regex `^[-=_*]{3,}$` (decorative rule line). -/
def isDecorativeRule (l : Str) : Bool :=
  decide (3 ≤ l.length) && l.all (fun c => c = '-' || c = '=' || c = '_' || c = '*')

def httpPre : Str := ['h', 't', 't', 'p', ':', '/', '/']

def httpsPre : Str := ['h', 't', 't', 'p', 's', ':', '/', '/']

def ltHttpPre : Str := ['<', 'h', 't', 't', 'p']

/-- URL line check (extract_corpus.py line 38). -/
def isURLLine (l : Str) : Bool :=
  httpPre.isPrefixOf l || httpsPre.isPrefixOf l || ltHttpPre.isPrefixOf l

/-- Regex `^[!！]+$` (exclamation-only line). -/
def isBangLine (l : Str) : Bool :=
  decide (l ≠ []) && l.all (fun c => c = '!' || c = '！')

def yakuchuPre1 : Str := ['（', '訳', '注', '：']

def yakuchuPre2 : Str := ['(', '訳', '注', ':']

def yakuchuPre3 : Str := ['訳', '注', '：']

/-- Translator's-note markers at line start (extract_corpus.py line 46). -/
def isYakuchuLine (l : Str) : Bool :=
  yakuchuPre1.isPrefixOf l || yakuchuPre2.isPrefixOf l || yakuchuPre3.isPrefixOf l

/-- Regex `^注[:：]?\s*$`: a line that is only the footnote label, an optional
colon, and trailing whitespace. -/
def isChuOnly (l : Str) : Bool :=
  match l with
  | '注' :: rest =>
    rest.all isPySpace ||
      (match rest with
       | c :: t => (c = ':' || c = '：') && t.all isPySpace
       | [] => false)
  | _ => false

/-- Regex `^注\s*\d+[:：]` anchored at line start. -/
def isChuNum (l : Str) : Bool :=
  match l with
  | '注' :: rest =>
    let r := rest.dropWhile isPySpace
    decide (r.takeWhile Char.isDigit ≠ []) &&
      (match r.dropWhile Char.isDigit with
       | c :: _ => c = ':' || c = '：'
       | [] => false)
  | _ => false

/-- Regex `^注[A-Z][:：]` anchored at line start. -/
def isChuLetter (l : Str) : Bool :=
  match l with
  | '注' :: c :: k :: _ =>
    (0x41 ≤ c.toNat && c.toNat ≤ 0x5A) && (k = ':' || k = '：')
  | _ => false

/-- Regex `^\d+\.?\s*$` (digits, optional period, trailing whitespace). -/
def isDigitsOnlyLine (l : Str) : Bool :=
  decide (l.takeWhile Char.isDigit ≠ []) &&
    (match l.dropWhile Char.isDigit with
     | r => r.all isPySpace ||
        (match r with
         | '.' :: t => t.all isPySpace
         | _ => false))

/-- Substring test (Python `in` on strings): the needle occurs contiguously
somewhere in the haystack. -/
def containsTok (needle : Str) : Str → Bool
  | [] => decide (needle = [])
  | c :: t => needle.isPrefixOf (c :: t) || containsTok needle t

def verTok : Str := ['V', 'e', 'r', 's', 'i', 'o', 'n']

def pageTok : Str := ['P', 'a', 'g', 'e']

def progTok : Str := ['P', 'r', 'o', 'g', 'r', 'e', 's', 's']

/-- Metadata check (extract_corpus.py line 60): contains `Version` and either
`Page` or `Progress`. -/
def isVersionMetaLine (l : Str) : Bool :=
  containsTok verTok l && (containsTok pageTok l || containsTok progTok l)

/-- `should_skip_line` (extract_corpus.py lines 25-67).  The Python early
returns form a disjunction of the checks, applied to the stripped line. -/
def should_skip_line (line : Str) : Bool :=
  let l := strip line
  decide (l = []) || isDecorativeRule l || isURLLine l || isBangLine l ||
  isYakuchuLine l || isChuOnly l || isChuNum l || isChuLetter l ||
  isDigitsOnlyLine l || isVersionMetaLine l || decide (l.length ≤ 2)

/-- `should_skip_line` of `main.py` (lines 25-47), the Shift-JIS variant:
fewer checks, digit-only lines without optional period, no length threshold. -/
def should_skip_line_sjis (line : Str) : Bool :=
  let l := strip line
  decide (l = []) || yakuchuPre1.isPrefixOf l || yakuchuPre2.isPrefixOf l ||
  isChuLetter l || (decide (l ≠ []) && l.all Char.isDigit) || isVersionMetaLine l

/-- The classification loop shared by extract_corpus.py lines 77-89 and
main.py lines 72-84: clean each line, drop lines that clean to empty, and
append to the Japanese or the English list by script detection. -/
def classifyLines : List Str → List Str × List Str
  | [] => ([], [])
  | l :: rest =>
    if clean_text l = [] then classifyLines rest
    else if is_japanese (clean_text l) then
      (clean_text l :: (classifyLines rest).1, (classifyLines rest).2)
    else
      ((classifyLines rest).1, clean_text l :: (classifyLines rest).2)

/-- The length filter `len(ja) >= 3 and len(en) >= 3` applied to a candidate
pair before it is emitted. -/
def pairOK (p : Str × Str) : Bool := decide (3 ≤ p.1.length ∧ 3 ≤ p.2.length)

/-- Dropping a while-matching run never lengthens a list. -/
theorem lengthDropWhileLe (p : Char → Bool) (l : Str) :
    (l.dropWhile p).length ≤ l.length := by
  induction l with
  | nil => simp [List.dropWhile]
  | cons c t ih =>
    simp only [List.dropWhile]
    split
    · exact Nat.le_succ_of_le ih
    · simp

/-- Python `' '.join(lines)` (extract_corpus.py line 105). -/
def joinSpace : List Str → Str
  | [] => []
  | x :: xs => if xs = [] then x else x ++ ' ' :: joinSpace xs

/-- Scanner for `re.sub(r';\s*', '; ', en)`: the flag records that the scan
is inside the whitespace run following a semicolon, which is consumed. -/
def semiNormGo : Bool → Str → Str
  | _, [] => []
  | skf, c :: rest =>
    if skf && isPySpace c then semiNormGo true rest
    else if c = ';' then ';' :: ' ' :: semiNormGo true rest
    else c :: semiNormGo false rest

/-- The scan of `re.sub(r';\s*', '; ', en)` (extract_corpus.py line 107):
every semicolon and the whitespace run after it become a semicolon followed
by exactly one space. -/
def semiNorm (l : Str) : Str := semiNormGo false l

/-- The tiered pairing of `extract_pairs_from_block` (extract_corpus.py lines
91-120): equal counts zip positionally; one Japanese line against several
English lines joins the English side; otherwise nonzero counts zip up to the
shorter side; an empty side yields nothing. -/
def reconcile (ja en : List Str) : List (Str × Str) :=
  if ja.length = en.length then
    (ja.zip en).filter pairOK
  else if ja.length = 1 ∧ 1 < en.length then
    (match ja with
     | [j] =>
       if pairOK (j, semiNorm (joinSpace en)) then
         [(j, semiNorm (joinSpace en))]
       else []
     | _ => [])
  else if ja ≠ [] ∧ en ≠ [] then
    (ja.zip en).filter pairOK
  else []

/-- The Japanese lines of one block after noise filtering and classification
(extract_corpus.py lines 72-89). -/
def jaOf (lines : List Str) : List Str :=
  (classifyLines (lines.filter (fun l => !should_skip_line l))).1

/-- The English lines of one block after noise filtering and classification. -/
def enOf (lines : List Str) : List Str :=
  (classifyLines (lines.filter (fun l => !should_skip_line l))).2

/-- `extract_pairs_from_block` (extract_corpus.py lines 69-120).  The early
return for an empty filtered list coincides with reconciling two empty
sides. -/
def extract_pairs_from_block (lines : List Str) : List (Str × Str) :=
  reconcile (jaOf lines) (enOf lines)

/-- Japanese lines of one block in the main.py pipeline (lines 66-84). -/
def jaOfSjis (lines : List Str) : List Str :=
  (classifyLines (lines.filter (fun l => !should_skip_line_sjis l))).1

/-- English lines of one block in the main.py pipeline. -/
def enOfSjis (lines : List Str) : List Str :=
  (classifyLines (lines.filter (fun l => !should_skip_line_sjis l))).2

/-- The per-block pairing of main.py lines 86-101: always zip up to the
shorter side and keep pairs with both lengths at least three. -/
def extract_block_sjis (lines : List Str) : List (Str × Str) :=
  ((jaOfSjis lines).zip (enOfSjis lines)).filter pairOK

/-- Line-ending normalization (extract_corpus.py line 132):
`content.replace('\r\n', '\n').replace('\r', '\n')`. -/
def normNL : Str → Str
  | [] => []
  | '\r' :: '\n' :: rest => '\n' :: normNL rest
  | '\r' :: rest => '\n' :: normNL rest
  | c :: rest => c :: normNL rest

/-- True when the whitespace run starting the list reaches a newline: this is
a match of the regex fragment `\s*\n` at the head of the list. -/
def wsNL (r : Str) : Bool := decide ('\n' ∈ r.takeWhile isPySpace)

/-- A match of `\n\n注[:：]\s*\n.*` (extract_corpus.py line 136) starting at
the head of the list.  With `re.DOTALL` the trailing `.*` always matches. -/
def matchChu (l : Str) : Bool :=
  match l with
  | '\n' :: '\n' :: '注' :: c :: rest => (c = ':' || c = '：') && wsNL rest
  | _ => false

/-- A match of `\s*\n` possibly preceded by one colon. -/
def colonTail (r : Str) : Bool :=
  wsNL r ||
    (match r with
     | c :: r2 => (c = ':' || c = '：') && wsNL r2
     | [] => false)

/-- The tail of the `Notes` header after the letters `Note`: an optional `s`,
an optional colon, then `\s*\n`. -/
def notesTail (r : Str) : Bool :=
  colonTail r ||
    (match r with
     | c :: r2 => (c = 's' || c = 'S') && colonTail r2
     | [] => false)

/-- A match of `\n\nNotes?[:：]?\s*\n.*` with `re.IGNORECASE` (extract_corpus.py
line 140) starting at the head of the list. -/
def matchNotes (l : Str) : Bool :=
  match l with
  | '\n' :: '\n' :: n :: o :: t :: e :: rest =>
    (n = 'N' || n = 'n') && (o = 'O' || o = 'o') && (t = 'T' || t = 't') &&
    (e = 'E' || e = 'e') && notesTail rest
  | _ => false

/-- `re.sub(notes_pattern1, '', content, flags=re.DOTALL)`: since the match
extends to the end of the string, the substitution truncates the text at the
leftmost match position. -/
def cutAtChu : Str → Str
  | [] => []
  | c :: rest => if matchChu (c :: rest) then [] else c :: cutAtChu rest

/-- `re.sub(notes_pattern2, '', ...)`: truncate at the leftmost `Notes` header
match. -/
def cutAtNotes : Str → Str
  | [] => []
  | c :: rest => if matchNotes (c :: rest) then [] else c :: cutAtNotes rest

/-- Footnote-section removal (extract_corpus.py lines 134-141): first the
`注` pattern, then the `Notes` pattern. -/
def removeNotes (l : Str) : Str := cutAtNotes (cutAtChu l)

/-- Scanner for `re.split(r'\n\n+', content)`: the flag records that the scan
is inside a separator run of newlines, which is consumed greedily. -/
def splitNNGo : Bool → Str → List Str
  | _, [] => [[]]
  | skf, c :: rest =>
    if skf && c = '\n' then splitNNGo true rest
    else if c = '\n' && rest.head? = some '\n' then
      [] :: splitNNGo true rest
    else
      match splitNNGo false rest with
      | [] => [[c]]
      | h :: t => (c :: h) :: t

/-- `re.split(r'\n\n+', content)` (extract_corpus.py line 144): split the text
at every run of two or more consecutive newline characters. -/
def splitNN (l : Str) : List Str := splitNNGo false l

/-- Python `block.split('\n')`. -/
def splitNL : Str → List Str
  | [] => [[]]
  | '\n' :: rest => [] :: splitNL rest
  | c :: rest =>
    match splitNL rest with
    | [] => [[c]]
    | h :: t => (c :: h) :: t

/-- Per-block line preparation (extract_corpus.py line 149): split the block
at single newlines, strip each line, drop the blank ones. -/
def blockLines (b : Str) : List Str :=
  ((splitNL b).map strip).filter (fun l => decide (l ≠ []))

/-- Block segmentation applied to already normalized and footnote-stripped
text (extract_corpus.py lines 143-149). -/
def segmentCore (content : Str) : List (List Str) :=
  (splitNN content).map blockLines

/-- `extract_pairs_from_file` (extract_corpus.py lines 122-153) on decoded
content: normalize line endings, cut the footnote sections, segment into
blocks, and concatenate the per-block pairs.  The file I/O around it is
elided. -/
def extract_pairs_from_file (content : Str) : List (Str × Str) :=
  ((segmentCore (removeNotes (normNL content))).map extract_pairs_from_block).flatten

/-- Field sanitization of `write_tsv` (extract_corpus.py lines 160-161):
tabs and newlines inside a field become spaces. -/
def sanitizeField (s : Str) : Str :=
  s.map (fun c => if c = '\t' || c = '\n' then ' ' else c)

/-- One output line of `write_tsv` (extract_corpus.py line 162):
`f"{ja}\t{en}\n"` after sanitization. -/
def tsvLine (ja en : Str) : Str :=
  sanitizeField ja ++ '\t' :: (sanitizeField en ++ ['\n'])

/-- Python `line.rstrip("\n")` (reverse.py line 16). -/
def rstripNL (l : Str) : Str :=
  (l.reverse.dropWhile (fun c => c = '\n')).reverse

/-- Python `line.split('\t', maxsplit)` (reverse.py line 17): split at the
first `maxsplit` tabs, keeping the remainder whole. -/
def splitTabMax : Nat → Str → List Str
  | 0, l => [l]
  | n + 1, l =>
    match l.dropWhile (fun c => c != '\t') with
    | [] => [l]
    | _ :: rest => l.takeWhile (fun c => c != '\t') :: splitTabMax n rest

/-- Re-parsing one TSV line by splitting at the first tab, as reverse.py
lines 16-18 do before building the JSON object. -/
def parseTSVLine (line : Str) : Option (Str × Str) :=
  match splitTabMax 2 (rstripNL line) with
  | p0 :: p1 :: _ => some (p0, p1)
  | _ => none

def keyEn : Str := ['e', 'n']

def keyJa : Str := ['j', 'a']

/-- The JSON object built by reverse.py line 19 for one TSV line, as an
ordered association list: `{"en": parts[0], "ja": parts[1]}` when the line
has at least two tab-separated parts, nothing otherwise. -/
def jsonRecordOfLine (line : Str) : Option (List (Str × Str)) :=
  match splitTabMax 2 (rstripNL line) with
  | p0 :: p1 :: _ => some [(keyEn, p0), (keyJa, p1)]
  | _ => none

/-- Follows the spec sentence for C5, not the source: segmentation that would
split only at runs of two or more consecutive blank lines, that is at three
or more consecutive newline characters.  For comparison with `splitNN`. -/
def splitNNSpecGo : Bool → Str → List Str
  | _, [] => [[]]
  | skf, c :: rest =>
    if skf && c = '\n' then splitNNSpecGo true rest
    else if c = '\n' && rest.head? = some '\n' && (rest.drop 1).head? = some '\n' then
      [] :: splitNNSpecGo true rest
    else
      match splitNNSpecGo false rest with
      | [] => [[c]]
      | h :: t => (c :: h) :: t

/-- Follows the spec sentence for C5: split at two-or-more blank lines. -/
def splitNNSpec (l : Str) : List Str := splitNNSpecGo false l

/-! General list lemmas used by several claims. -/

theorem takeWhileOfAll (p : Char → Bool) (l : Str) (h : ∀ x ∈ l, p x = true) :
    l.takeWhile p = l := by
  induction l with
  | nil => rfl
  | cons c t ih =>
    rw [List.takeWhile_cons, if_pos (h c (List.mem_cons_self c t))]
    rw [ih (fun x hx => h x (List.mem_cons_of_mem c hx))]

theorem dropWhileOfAll (p : Char → Bool) (l : Str) (h : ∀ x ∈ l, p x = true) :
    l.dropWhile p = [] := by
  induction l with
  | nil => rfl
  | cons c t ih =>
    rw [List.dropWhile_cons_of_pos (h c (List.mem_cons_self c t))]
    exact ih (fun x hx => h x (List.mem_cons_of_mem c hx))

theorem takeWhileAppendAll (p : Char → Bool) (a b : Str) (h : ∀ x ∈ a, p x = true) :
    (a ++ b).takeWhile p = a ++ b.takeWhile p := by
  induction a with
  | nil => rfl
  | cons c t ih =>
    rw [List.cons_append, List.takeWhile_cons, if_pos (h c (List.mem_cons_self c t))]
    rw [ih (fun x hx => h x (List.mem_cons_of_mem c hx)), List.cons_append]

theorem dropWhileAppendAll (p : Char → Bool) (a b : Str) (h : ∀ x ∈ a, p x = true) :
    (a ++ b).dropWhile p = b.dropWhile p := by
  induction a with
  | nil => rfl
  | cons c t ih =>
    rw [List.cons_append, List.dropWhile_cons_of_pos (h c (List.mem_cons_self c t))]
    exact ih (fun x hx => h x (List.mem_cons_of_mem c hx))

theorem takeWhileAppendStop (p : Char → Bool) (a : Str) (x : Char) (b : Str)
    (h : ∀ y ∈ a, p y = true) (hx : p x = false) :
    (a ++ x :: b).takeWhile p = a := by
  rw [takeWhileAppendAll p a (x :: b) h, List.takeWhile_cons, if_neg (by simp [hx])]
  simp

theorem dropWhileAppendStop (p : Char → Bool) (a : Str) (x : Char) (b : Str)
    (h : ∀ y ∈ a, p y = true) (hx : p x = false) :
    (a ++ x :: b).dropWhile p = x :: b := by
  rw [dropWhileAppendAll p a (x :: b) h, List.dropWhile_cons_of_neg (by simp [hx])]

/-- The positional candidate pair at index `i`: present when both lists have
an `i`-th line and both lines are at least three characters long. -/
def posPair (a b : List Str) (i : Nat) : Option (Str × Str) :=
  match a[i]?, b[i]? with
  | some j, some e => if 3 ≤ j.length ∧ 3 ≤ e.length then some (j, e) else none
  | _, _ => none

/-- The zip-then-filter pairing used by the source equals the index-based
description of the claims: the positional pairs at indices below the shorter
length that pass the length filter, in increasing index order. -/
theorem zipFilterEqRange (a b : List Str) :
    (a.zip b).filter pairOK
      = (List.range (min a.length b.length)).filterMap (posPair a b) := by
  induction a generalizing b with
  | nil => simp
  | cons x a2 ih =>
    cases b with
    | nil => simp
    | cons y b2 =>
      have hcomp : (posPair (x :: a2) (y :: b2)) ∘ Nat.succ = posPair a2 b2 := by
        funext i
        simp [posPair]
      rw [List.zip_cons_cons, List.filter_cons, List.length_cons, List.length_cons,
        Nat.succ_min_succ, List.range_succ_eq_map, List.filterMap_cons,
        List.filterMap_map, hcomp]
      by_cases hp : 3 ≤ x.length ∧ 3 ≤ y.length
      · have h1 : pairOK (x, y) = true := by simpa [pairOK] using hp
        have h2 : posPair (x :: a2) (y :: b2) 0 = some (x, y) := by
          simp [posPair, hp]
        rw [h1, h2, ih]
        simp
      · have h1 : pairOK (x, y) = false := by simpa [pairOK] using hp
        have h2 : posPair (x :: a2) (y :: b2) 0 = none := by
          simp [posPair, hp]
        rw [h1, h2, ih]
        simp

/-! Invariants of classification and reconciliation. -/

/-- Every line placed on the Japanese side by the classification loop
contains a Japanese-script character. -/
theorem memClassifyJa (ls : List Str) (x : Str)
    (hx : x ∈ (classifyLines ls).1) : is_japanese x = true := by
  induction ls with
  | nil => simp [classifyLines] at hx
  | cons l rest ih =>
    simp only [classifyLines] at hx
    split_ifs at hx with h1 h2
    · exact ih hx
    · rcases List.mem_cons.mp hx with rfl | hx2
      · exact h2
      · exact ih hx2
    · exact ih hx

/-- Every line placed on the English side by the classification loop contains
no Japanese-script character. -/
theorem memClassifyEn (ls : List Str) (x : Str)
    (hx : x ∈ (classifyLines ls).2) : is_japanese x = false := by
  induction ls with
  | nil => simp [classifyLines] at hx
  | cons l rest ih =>
    simp only [classifyLines] at hx
    split_ifs at hx with h1 h2
    · exact ih hx
    · exact ih hx
    · rcases List.mem_cons.mp hx with rfl | hx2
      · exact Bool.eq_false_iff.mpr h2
      · exact ih hx2

/-- Joining Japanese-free lines with spaces stays Japanese-free. -/
theorem joinSpaceNoJP (l : List Str) (h : ∀ x ∈ l, is_japanese x = false) :
    is_japanese (joinSpace l) = false := by
  induction l with
  | nil => rfl
  | cons x xs ih =>
    simp only [joinSpace]
    split
    · exact h x (List.mem_cons_self x xs)
    · have hx := h x (List.mem_cons_self x xs)
      have hxs := ih (fun y hy => h y (List.mem_cons_of_mem x hy))
      simp only [is_japanese] at hx hxs ⊢
      rw [List.any_append, List.any_cons, hx, hxs]
      decide

/-- The semicolon-space normalization scan stays Japanese-free. -/
theorem semiNormGoNoJP (l : Str) (b : Bool) (h : is_japanese l = false) :
    is_japanese (semiNormGo b l) = false := by
  induction l generalizing b with
  | nil => rfl
  | cons c rest ih =>
    simp only [is_japanese, List.any_cons, Bool.or_eq_false_iff] at h
    simp only [semiNormGo]
    split_ifs with h1 h2
    · exact ih true h.2
    · simp only [is_japanese, List.any_cons]
      have := ih true h.2
      simp only [is_japanese] at this
      rw [this]
      decide
    · simp only [is_japanese, List.any_cons]
      have := ih false h.2
      simp only [is_japanese] at this
      rw [h.1, this]
      decide

/-- An empty Japanese or English side yields no pairs. -/
theorem reconcileEmpty (a b : List Str) (h : a = [] ∨ b = []) :
    reconcile a b = [] := by
  rcases h with rfl | rfl
  · unfold reconcile
    split_ifs with h1 h2 h3 <;> simp_all
  · unfold reconcile
    split_ifs with h1 h2 h3 <;> simp_all

/-- Reconciliation emits at most as many pairs as the shorter side. -/
theorem reconcileLenLe (a b : List Str) :
    (reconcile a b).length ≤ min a.length b.length := by
  unfold reconcile
  split_ifs with h1 h2 h3
  · calc ((a.zip b).filter pairOK).length ≤ (a.zip b).length :=
          List.length_filter_le _ _
      _ = min a.length b.length := List.length_zip a b
  · match a, h2 with
    | [x], h2 =>
      have hb : 1 ≤ b.length := Nat.le_of_lt h2.2
      dsimp only
      split_ifs
      · simp
        omega
      · simp
  · calc ((a.zip b).filter pairOK).length ≤ (a.zip b).length :=
          List.length_filter_le _ _
      _ = min a.length b.length := List.length_zip a b
  · simp

/-- Every pair reconciliation emits has a Japanese first component and a
Japanese-free second component, provided the two sides were classified that
way. -/
theorem reconcileJP (a b : List Str)
    (ha : ∀ x ∈ a, is_japanese x = true) (hb : ∀ x ∈ b, is_japanese x = false)
    (p : Str × Str) (hp : p ∈ reconcile a b) :
    is_japanese p.1 = true ∧ is_japanese p.2 = false := by
  obtain ⟨p1, p2⟩ := p
  unfold reconcile at hp
  split_ifs at hp with h1 h2 h3
  · have hz := (List.mem_filter.mp hp).1
    have := List.of_mem_zip hz
    exact ⟨ha p1 this.1, hb p2 this.2⟩
  · match a, h2, ha, hp with
    | [x], h2, ha, hp =>
      dsimp only at hp
      split_ifs at hp with hlen
      · have heq := List.mem_singleton.mp hp
        have h1eq : p1 = x := congrArg Prod.fst heq
        have h2eq : p2 = semiNorm (joinSpace b) := congrArg Prod.snd heq
        show is_japanese p1 = true ∧ is_japanese p2 = false
        rw [h1eq, h2eq]
        refine ⟨ha x (List.mem_singleton_self x), ?_⟩
        exact semiNormGoNoJP _ _ (joinSpaceNoJP b hb)
      · simp at hp
  · have hz := (List.mem_filter.mp hp).1
    have := List.of_mem_zip hz
    exact ⟨ha p1 this.1, hb p2 this.2⟩
  · simp at hp

/-! Claim theorems. -/

/-- C1: for every block whose filtered, classified lines have an equal
nonzero number N of Source (Japanese-script) lines and Target lines, pair
reconciliation emits exactly the positional pairs (i-th Source, i-th Target)
at the indices where both sides have cleaned length at least 3, in
increasing index order, and no other pairs. -/
theorem equalCountsPositionalPairs (lines : List Str)
    (heq : (jaOf lines).length = (enOf lines).length)
    (_hne : (jaOf lines).length ≠ 0) :
    extract_pairs_from_block lines
      = (List.range (jaOf lines).length).filterMap
          (posPair (jaOf lines) (enOf lines)) := by
  unfold extract_pairs_from_block reconcile
  rw [if_pos heq, zipFilterEqRange]
  have hmin : min (jaOf lines).length (enOf lines).length
      = (jaOf lines).length := by omega
  rw [hmin]

def c1Lines : List Str := ["その本を読んだ。".toList, "I read that book.".toList]

/-- Witness for C1 at the spec's equal-count scenario block. -/
theorem equalCountsPositionalPairsWitness :
    extract_pairs_from_block c1Lines
      = (List.range (jaOf c1Lines).length).filterMap
          (posPair (jaOf c1Lines) (enOf c1Lines)) :=
  equalCountsPositionalPairs c1Lines (by decide) (by decide)

/-- C2: for every block whose filtered, classified lines have exactly one
Source line and more than one Target line, reconciliation emits at most one
pair, and an emitted pair couples that Source line with the Target lines
joined by single spaces and semicolon-space normalized. -/
theorem fanInSinglePair (lines : List Str) (j : Str)
    (hja : jaOf lines = [j]) (hen : 1 < (enOf lines).length) :
    extract_pairs_from_block lines
      = if pairOK (j, semiNorm (joinSpace (enOf lines))) = true then
          [(j, semiNorm (joinSpace (enOf lines)))]
        else [] := by
  unfold extract_pairs_from_block reconcile
  rw [hja]
  have h1 : ¬(([j] : List Str).length = (enOf lines).length) := by
    simp only [List.length_singleton]
    omega
  rw [if_neg h1, if_pos ⟨by simp, hen⟩]

def c2Lines : List Str := ["見て。".toList, "Look;".toList, "over there.".toList]

/-- Witness for C2 at the spec's fan-in scenario block. -/
theorem fanInSinglePairWitness :
    extract_pairs_from_block c2Lines
      = if pairOK ("見て。".toList, semiNorm (joinSpace (enOf c2Lines))) = true then
          [("見て。".toList, semiNorm (joinSpace (enOf c2Lines)))]
        else [] :=
  fanInSinglePair c2Lines "見て。".toList (by decide) (by decide)

/-- C3: for every block whose filtered, classified lines have unequal
nonzero counts, outside the fan-in case, reconciliation pairs the i-th
Source line with the i-th Target line for indices below the shorter count
(subject to the length filter), discards the surplus of the longer side, and
emits at most min(a, b) pairs. -/
theorem fallbackTruncatedPairs (lines : List Str)
    (hne : (jaOf lines).length ≠ (enOf lines).length)
    (hja : jaOf lines ≠ []) (hen : enOf lines ≠ [])
    (hnf : ¬((jaOf lines).length = 1 ∧ 1 < (enOf lines).length)) :
    extract_pairs_from_block lines
      = (List.range (min (jaOf lines).length (enOf lines).length)).filterMap
          (posPair (jaOf lines) (enOf lines))
    ∧ (extract_pairs_from_block lines).length
        ≤ min (jaOf lines).length (enOf lines).length := by
  constructor
  · unfold extract_pairs_from_block reconcile
    rw [if_neg hne, if_neg hnf, if_pos ⟨hja, hen⟩, zipFilterEqRange]
  · exact reconcileLenLe _ _

def c3Lines : List Str :=
  ["日本語文一。".toList, "日本語文二。".toList, "English sentence one.".toList]

/-- Witness for C3 at a block with two Source lines and one Target line. -/
theorem fallbackTruncatedPairsWitness :
    extract_pairs_from_block c3Lines
      = (List.range (min (jaOf c3Lines).length (enOf c3Lines).length)).filterMap
          (posPair (jaOf c3Lines) (enOf c3Lines))
    ∧ (extract_pairs_from_block c3Lines).length
        ≤ min (jaOf c3Lines).length (enOf c3Lines).length :=
  fallbackTruncatedPairs c3Lines (by decide) (by decide) (by decide) (by decide)

/-- C7 as amended: the minimum-length noise check applies to the stripped
line, before numeric-character-reference removal: every line whose stripped
text has at most 2 characters is skipped as noise before classification. -/
theorem shortStrippedLineSkipped (line : Str) (h : (strip line).length ≤ 2) :
    should_skip_line line = true := by
  simp [should_skip_line, h]

/-- Witness for the amended C7. -/
theorem shortStrippedLineSkippedWitness : should_skip_line "ab".toList = true :=
  shortStrippedLineSkipped "ab".toList (by decide)

def c7Line : Str := "a&#1234".toList

/-- Counterexample to C7 as stated: the line `a&#1234` survives all noise
checks although its cleaned text `a` has length at most 2, and it is handed
to language classification, landing on the Target side. -/
theorem cleanedShortLineNotSkipped :
    should_skip_line c7Line = false
    ∧ (clean_text c7Line).length ≤ 2
    ∧ classifyLines [c7Line] = ([], ["a".toList]) := by decide

/-- C8: reconciliation is total and degrades instead of failing: an empty
Source or Target side yields the empty pair list, and in all cases at most
min(sourceCount, targetCount) pairs are emitted.  This holds for the
extract_corpus.py block extractor and for the main.py variant. -/
theorem degenerateNeverErrors (lines : List Str) :
    ((jaOf lines = [] ∨ enOf lines = []) → extract_pairs_from_block lines = [])
    ∧ (extract_pairs_from_block lines).length
        ≤ min (jaOf lines).length (enOf lines).length
    ∧ ((jaOfSjis lines = [] ∨ enOfSjis lines = []) → extract_block_sjis lines = [])
    ∧ (extract_block_sjis lines).length
        ≤ min (jaOfSjis lines).length (enOfSjis lines).length := by
  refine ⟨fun h => reconcileEmpty _ _ h, reconcileLenLe _ _, ?_, ?_⟩
  · intro h
    unfold extract_block_sjis
    rcases h with h | h <;> rw [h] <;> simp
  · unfold extract_block_sjis
    calc (((jaOfSjis lines).zip (enOfSjis lines)).filter pairOK).length
        ≤ ((jaOfSjis lines).zip (enOfSjis lines)).length :=
          List.length_filter_le _ _
      _ = min (jaOfSjis lines).length (enOfSjis lines).length :=
          List.length_zip _ _

def c8Lines : List Str := ["---".toList, "".toList, "1.".toList]

/-- Witness for C8 at the spec's all-noise scenario block. -/
theorem degenerateNeverErrorsWitness : extract_pairs_from_block c8Lines = [] :=
  (degenerateNeverErrors c8Lines).1 (Or.inl (by decide))

/-- C10: every pair emitted from a block has a source side containing a
character in the Hiragana, Katakana or CJK ranges and a target side
containing none, in both block extractors (for the fan-in tier the
concatenated target is likewise Japanese-free). -/
theorem pairsScriptInvariant (lines : List Str) (p : Str × Str) :
    (p ∈ extract_pairs_from_block lines →
      is_japanese p.1 = true ∧ is_japanese p.2 = false)
    ∧ (p ∈ extract_block_sjis lines →
      is_japanese p.1 = true ∧ is_japanese p.2 = false) := by
  constructor
  · intro hp
    exact reconcileJP _ _ (fun x hx => memClassifyJa _ x hx)
      (fun x hx => memClassifyEn _ x hx) p hp
  · intro hp
    obtain ⟨p1, p2⟩ := p
    have hz := (List.mem_filter.mp hp).1
    have hm := List.of_mem_zip hz
    exact ⟨memClassifyJa _ _ hm.1, memClassifyEn _ _ hm.2⟩

def c10Lines : List Str := ["その映画を見た。".toList, "I saw that movie.".toList]

/-- Witness for C10 at a concrete block and its emitted pair. -/
theorem pairsScriptInvariantWitness :
    is_japanese ("その映画を見た。".toList) = true
    ∧ is_japanese ("I saw that movie.".toList) = false :=
  (pairsScriptInvariant c10Lines
    ("その映画を見た。".toList, "I saw that movie.".toList)).1 (by decide)

/-! Serialization lemmas for C4 and C9. -/

/-- Sanitization does nothing on a field free of tabs and newlines. -/
theorem sanitizeId (s : Str) (h : ∀ c ∈ s, c ≠ '\t' ∧ c ≠ '\n') :
    sanitizeField s = s := by
  induction s with
  | nil => rfl
  | cons c t ih =>
    have hc := h c (List.mem_cons_self c t)
    simp only [sanitizeField, List.map_cons]
    rw [if_neg (by simp [hc.1, hc.2])]
    have := ih (fun x hx => h x (List.mem_cons_of_mem c hx))
    simp only [sanitizeField] at this
    rw [this]

/-- Stripping trailing newlines removes a final newline. -/
theorem rstripNLAppend (l : Str) : rstripNL (l ++ ['\n']) = rstripNL l := by
  unfold rstripNL
  rw [List.reverse_append]
  simp

/-- Stripping trailing newlines does nothing on a newline-free list. -/
theorem rstripNLNoNL (l : Str) (h : ∀ c ∈ l, c ≠ '\n') : rstripNL l = l := by
  cases hly : l.reverse with
  | nil =>
    have : l = [] := by simpa using congrArg List.reverse hly
    simp [rstripNL, this]
  | cons x t =>
    have hx : x ∈ l := by
      rw [← List.mem_reverse, hly]
      exact List.mem_cons_self x t
    unfold rstripNL
    rw [hly, List.dropWhile_cons_of_neg (by simp [h x hx]), ← hly,
      List.reverse_reverse]

/-- Splitting with budget left at a tab-free prefix peels off that prefix. -/
theorem splitTabStep (n : Nat) (a b : Str) (hA : ∀ c ∈ a, c ≠ '\t') :
    splitTabMax (n + 1) (a ++ '\t' :: b) = a :: splitTabMax n b := by
  have hA2 : ∀ c ∈ a, (fun c => c != '\t') c = true := by
    intro c hc
    simp [hA c hc]
  have hdrop := dropWhileAppendStop (fun c => c != '\t') a '\t' b hA2 (by simp)
  have htake := takeWhileAppendStop (fun c => c != '\t') a '\t' b hA2 (by simp)
  simp only [splitTabMax, hdrop, htake]

/-- Splitting a tab-free list yields the list itself. -/
theorem splitTabNone (n : Nat) (l : Str) (h : ∀ c ∈ l, c ≠ '\t') :
    splitTabMax n l = [l] := by
  cases n with
  | zero => rfl
  | succ n =>
    have h2 : ∀ c ∈ l, (fun c => c != '\t') c = true := by
      intro c hc
      simp [h c hc]
    simp only [splitTabMax, dropWhileOfAll _ l h2]

/-- A written TSV line re-splits into exactly the two sanitized fields when
neither original field held a tab or newline. -/
theorem splitTsvLine (ja en : Str)
    (hja : ∀ c ∈ ja, c ≠ '\t' ∧ c ≠ '\n') (hen : ∀ c ∈ en, c ≠ '\t' ∧ c ≠ '\n') :
    splitTabMax 2 (rstripNL (tsvLine ja en)) = [ja, en] := by
  unfold tsvLine
  rw [sanitizeId ja hja, sanitizeId en hen]
  have h1 : ja ++ '\t' :: (en ++ ['\n']) = (ja ++ '\t' :: en) ++ ['\n'] := by simp
  rw [h1, rstripNLAppend, rstripNLNoNL _ ?hnl]
  case hnl =>
    intro c hc
    rcases List.mem_append.mp hc with hc1 | hc2
    · exact (hja c hc1).2
    · rcases List.mem_cons.mp hc2 with rfl | hc3
      · decide
      · exact (hen c hc3).2
  rw [splitTabStep 1 ja en (fun c hc => (hja c hc).1),
    splitTabNone 1 en (fun c hc => (hen c hc).1)]

/-- C9 as amended: writing a pair as a TSV line and re-parsing by splitting
at the first tab recovers the pair exactly, provided neither side contains a
tab or a newline (so that sanitization leaves it unchanged). -/
theorem tsvRoundTrip (ja en : Str)
    (hja : ∀ c ∈ ja, c ≠ '\t' ∧ c ≠ '\n') (hen : ∀ c ∈ en, c ≠ '\t' ∧ c ≠ '\n') :
    parseTSVLine (tsvLine ja en) = some (ja, en) := by
  unfold parseTSVLine
  rw [splitTsvLine ja en hja hen]

/-- Witness for the amended C9. -/
theorem tsvRoundTripWitness :
    parseTSVLine (tsvLine "駅はどこですか。".toList "Where is the station?".toList)
      = some ("駅はどこですか。".toList, "Where is the station?".toList) :=
  tsvRoundTrip _ _ (by decide) (by decide)

/-- Counterexample to C9 as stated: the pair whose source is `あ`, newline,
`い` satisfies the stated hypothesis (no tab after sanitization), yet
re-parsing the written line returns the sanitized source, not the original
one. -/
theorem newlineBreaksRoundTrip :
    parseTSVLine (tsvLine "あ\nい".toList "Hello.".toList)
      = some ("あ い".toList, "Hello.".toList)
    ∧ "あ い".toList ≠ "あ\nい".toList
    ∧ (sanitizeField "あ\nい".toList).all (fun c => c != '\t') = true := by decide

/-- C4 as amended: for a tab- and newline-free pair, the JSON record built
from the written TSV line maps the key `en` to the pair's sourceText (the
Japanese side) and the key `ja` to the pair's targetText: the key names are
swapped with respect to their contents. -/
theorem jsonRecordFieldsSwapped (ja en : Str)
    (hja : ∀ c ∈ ja, c ≠ '\t' ∧ c ≠ '\n') (hen : ∀ c ∈ en, c ≠ '\t' ∧ c ≠ '\n') :
    jsonRecordOfLine (tsvLine ja en) = some [(keyEn, ja), (keyJa, en)] := by
  unfold jsonRecordOfLine
  rw [splitTsvLine ja en hja hen]

/-- Witness for the amended C4. -/
theorem jsonRecordFieldsSwappedWitness :
    jsonRecordOfLine (tsvLine "おはよう。".toList "Good morning.".toList)
      = some [(keyEn, "おはよう。".toList), (keyJa, "Good morning.".toList)] :=
  jsonRecordFieldsSwapped _ _ (by decide) (by decide)

/-- Counterexample to C4 as stated: for a concrete pair the JSON record's
`en` field holds the sourceText (Japanese side), which differs from the
targetText the claim promises there. -/
theorem jsonKeyEnHoldsSource :
    (jsonRecordOfLine (tsvLine "こんにちは。".toList "Hello there.".toList)).bind
        (fun r => List.lookup keyEn r)
      = some "こんにちは。".toList
    ∧ "こんにちは。".toList ≠ "Hello there.".toList := by decide

/-! Footnote-section removal lemmas for C6. -/

/-- The `Notes` truncation only ever keeps a prefix of its input. -/
theorem cutAtNotesIsPre (l : Str) : cutAtNotes l <+: l := by
  induction l with
  | nil => exact List.prefix_refl []
  | cons c rest ih =>
    simp only [cutAtNotes]
    split_ifs
    · exact List.nil_prefix
    · obtain ⟨t, ht⟩ := ih
      exact ⟨t, by rw [List.cons_append, ht]⟩

/-- If the `注` pattern matches at some position, the truncation keeps at
most the text before that position. -/
theorem cutAtChuPrefixOfMatch (l1 l2 : Str) (h : matchChu l2 = true) :
    cutAtChu (l1 ++ l2) <+: l1 := by
  induction l1 with
  | nil =>
    cases l2 with
    | nil => exact absurd h (by decide)
    | cons c rest =>
      rw [List.nil_append]
      simp only [cutAtChu]
      rw [if_pos h]
  | cons x t ih =>
    rw [List.cons_append]
    simp only [cutAtChu]
    split_ifs
    · exact List.nil_prefix
    · obtain ⟨u, hu⟩ := ih
      exact ⟨u, by rw [List.cons_append, hu]⟩

/-- A whitespace run followed by a newline matches the fragment `\s*\n`. -/
theorem wsNLHolds (ws rest : Str) (hws : ∀ x ∈ ws, isPySpace x = true) :
    wsNL (ws ++ '\n' :: rest) = true := by
  unfold wsNL
  rw [takeWhileAppendAll isPySpace ws ('\n' :: rest) hws,
    List.takeWhile_cons, if_pos (by decide)]
  simp [List.mem_append]

/-- The `注` pattern matches at a blank line followed by the label, a colon,
optional whitespace and a newline. -/
theorem matchChuHolds (c : Char) (ws rest : Str)
    (hc : c = ':' ∨ c = '：') (hws : ∀ x ∈ ws, isPySpace x = true) :
    matchChu ('\n' :: '\n' :: '注' :: c :: (ws ++ '\n' :: rest)) = true := by
  show ((c = ':' || c = '：') && wsNL (ws ++ '\n' :: rest)) = true
  rw [Bool.and_eq_true]
  exact ⟨by rcases hc with rfl | rfl <;> decide, wsNLHolds ws rest hws⟩

/-- The `Notes` pattern matches at a blank line followed by the header
letters in either case, an optional `s` in either case, an optional colon,
optional whitespace and a newline. -/
theorem matchNotesHolds (n o t e : Char) (sPart cPart ws rest : Str)
    (hn : n = 'N' ∨ n = 'n') (ho : o = 'O' ∨ o = 'o')
    (ht : t = 'T' ∨ t = 't') (he : e = 'E' ∨ e = 'e')
    (hs : sPart = [] ∨ sPart = ['s'] ∨ sPart = ['S'])
    (hcp : cPart = [] ∨ cPart = [':'] ∨ cPart = ['：'])
    (hws : ∀ x ∈ ws, isPySpace x = true) :
    matchNotes ('\n' :: '\n' :: n :: o :: t :: e ::
      (sPart ++ (cPart ++ (ws ++ '\n' :: rest)))) = true := by
  have hwsnl : wsNL (ws ++ '\n' :: rest) = true := wsNLHolds ws rest hws
  have hcolon : colonTail (cPart ++ (ws ++ '\n' :: rest)) = true := by
    rcases hcp with rfl | rfl | rfl
    · rw [List.nil_append]
      unfold colonTail
      rw [hwsnl]
      simp
    · rw [List.cons_append]
      unfold colonTail
      rw [Bool.or_eq_true]
      right
      simp [hwsnl]
    · rw [List.cons_append]
      unfold colonTail
      rw [Bool.or_eq_true]
      right
      simp [hwsnl]
  have hnotes : notesTail (sPart ++ (cPart ++ (ws ++ '\n' :: rest))) = true := by
    rcases hs with rfl | rfl | rfl
    · rw [List.nil_append]
      unfold notesTail
      rw [hcolon]
      simp
    · rw [List.cons_append]
      unfold notesTail
      rw [Bool.or_eq_true]
      right
      simp [hcolon]
    · rw [List.cons_append]
      unfold notesTail
      rw [Bool.or_eq_true]
      right
      simp [hcolon]
  show ((n = 'N' || n = 'n') && (o = 'O' || o = 'o') && (t = 'T' || t = 't') &&
    (e = 'E' || e = 'e') &&
    notesTail (sPart ++ (cPart ++ (ws ++ '\n' :: rest)))) = true
  simp only [Bool.and_eq_true]
  refine ⟨⟨⟨⟨?_, ?_⟩, ?_⟩, ?_⟩, hnotes⟩
  · rcases hn with rfl | rfl <;> decide
  · rcases ho with rfl | rfl <;> decide
  · rcases ht with rfl | rfl <;> decide
  · rcases he with rfl | rfl <;> decide

/-- If the `Notes` pattern matches at some position, the truncation keeps at
most the text before that position. -/
theorem cutAtNotesPrefixOfMatch (l1 l2 : Str) (h : matchNotes l2 = true) :
    cutAtNotes (l1 ++ l2) <+: l1 := by
  induction l1 with
  | nil =>
    cases l2 with
    | nil => exact absurd h (by decide)
    | cons c rest =>
      rw [List.nil_append]
      simp only [cutAtNotes]
      rw [if_pos h]
  | cons x t ih =>
    rw [List.cons_append]
    simp only [cutAtNotes]
    split_ifs
    · exact List.nil_prefix
    · obtain ⟨u, hu⟩ := ih
      exact ⟨u, by rw [List.cons_append, hu]⟩

/-- C6 as amended: a blank-line-delimited trailing section whose header line
is the footnote label `注` followed by a required colon (ASCII or
full-width), optional whitespace and a newline is removed together with all
text after it: what remains is a prefix of the text before the header.  The
same holds for a `Notes` header matched case-insensitively with an optional
colon, provided the `注`-colon pattern, whose removal pass runs first,
matches nowhere in the document. -/
theorem footnoteHeadersCutDocument
    (pre1 ws1 rest1 : Str) (c : Char)
    (hc : c = ':' ∨ c = '：') (hws1 : ∀ x ∈ ws1, isPySpace x = true)
    (pre2 ws2 rest2 : Str) (n o t e : Char) (sPart cPart : Str)
    (hn : n = 'N' ∨ n = 'n') (ho : o = 'O' ∨ o = 'o')
    (ht : t = 'T' ∨ t = 't') (he : e = 'E' ∨ e = 'e')
    (hs : sPart = [] ∨ sPart = ['s'] ∨ sPart = ['S'])
    (hcp : cPart = [] ∨ cPart = [':'] ∨ cPart = ['：'])
    (hws2 : ∀ x ∈ ws2, isPySpace x = true)
    (hchu : cutAtChu (pre2 ++ '\n' :: '\n' :: n :: o :: t :: e ::
        (sPart ++ (cPart ++ (ws2 ++ '\n' :: rest2))))
      = pre2 ++ '\n' :: '\n' :: n :: o :: t :: e ::
        (sPart ++ (cPart ++ (ws2 ++ '\n' :: rest2)))) :
    removeNotes (pre1 ++ '\n' :: '\n' :: '注' :: c :: (ws1 ++ '\n' :: rest1)) <+: pre1
    ∧ removeNotes (pre2 ++ '\n' :: '\n' :: n :: o :: t :: e ::
        (sPart ++ (cPart ++ (ws2 ++ '\n' :: rest2)))) <+: pre2 := by
  constructor
  · unfold removeNotes
    have h1 : cutAtChu (pre1 ++ '\n' :: '\n' :: '注' :: c :: (ws1 ++ '\n' :: rest1)) <+: pre1 :=
      cutAtChuPrefixOfMatch pre1 _ (matchChuHolds c ws1 rest1 hc hws1)
    exact (cutAtNotesIsPre _).trans h1
  · unfold removeNotes
    rw [hchu]
    exact cutAtNotesPrefixOfMatch pre2 _
      (matchNotesHolds n o t e sPart cPart ws2 rest2 hn ho ht he hs hcp hws2)

/-- Witness for the amended C6, for both header kinds. -/
theorem footnoteHeadersCutDocumentWitness :
    removeNotes ("abc".toList ++ '\n' :: '\n' :: '注' :: ':' :: ([] ++ '\n' :: "x".toList))
      <+: "abc".toList
    ∧ removeNotes ("de".toList ++ '\n' :: '\n' :: 'N' :: 'o' :: 't' :: 'e' ::
        (['s'] ++ ([] ++ ([] ++ '\n' :: "y".toList)))) <+: "de".toList :=
  footnoteHeadersCutDocument "abc".toList [] "x".toList ':' (Or.inl rfl) (by decide)
    "de".toList [] "y".toList 'N' 'o' 't' 'e' ['s'] [] (Or.inl rfl) (Or.inr rfl)
    (Or.inr rfl) (Or.inr rfl) (Or.inr (Or.inl rfl)) (Or.inl rfl) (by decide)
    (by decide)

def docChuNoColon : Str :=
  "日本語の文です。".toList ++ '\n' :: "This is English text.".toList ++
  '\n' :: '\n' :: '注' :: '\n' :: "これは注釈です。".toList ++
  '\n' :: "This is an annotation.".toList

def docNotesOverlap : Str :=
  "a".toList ++ '\n' :: '\n' :: "Notes".toList ++
  '\n' :: '\n' :: "注：".toList ++ '\n' :: "z".toList

/-- Counterexample to C6 as stated, for both header kinds.  A document with
a blank-line-delimited trailing section headed by a bare `注` without colon
is left untouched by footnote removal, and a pair built from that section's
lines is emitted.  And in a document whose blank-line-delimited `Notes`
trailing section contains a `注`-colon match, the first removal pass
truncates inside the `Notes` header, so the `Notes` header line itself
survives instead of being removed. -/
theorem footnoteHeaderCounterexample :
    removeNotes docChuNoColon = docChuNoColon
    ∧ ("これは注釈です。".toList, "This is an annotation.".toList)
        ∈ extract_pairs_from_file docChuNoColon
    ∧ removeNotes docNotesOverlap
        = "a".toList ++ '\n' :: '\n' :: "Notes".toList := by decide

/-! Block-splitting characterization for C5. -/

/-- The text contains no two consecutive newline characters. -/
def noNN : Str → Bool
  | [] => true
  | c :: rest => !(c = '\n' && decide (rest.head? = some '\n')) && noNN rest

/-- A well-formed chunk between separators: nonempty, free of double
newlines, and not starting or ending with a newline. -/
def goodChunkB (c : Str) : Bool :=
  noNN c && decide (c ≠ []) && decide (c.head? ≠ some '\n') &&
  decide (c.getLast? ≠ some '\n')

/-- A separator: a run of at least two newline characters. -/
def goodSepB (s : Str) : Bool :=
  decide (2 ≤ s.length) && s.all (fun x => decide (x = '\n'))

/-- A text assembled as a first chunk followed by alternating separators and
chunks. -/
def altJoin : Str → List (Str × Str) → Str
  | c, [] => c
  | c, (s, c2) :: r => c ++ (s ++ altJoin c2 r)

/-- A text without consecutive newlines is one single chunk for the block
splitter. -/
theorem splitNNGoNoNN (c : Str) (h : noNN c = true) :
    splitNNGo false c = [c] := by
  induction c with
  | nil => rfl
  | cons x rest ih =>
    simp only [noNN, Bool.and_eq_true, Bool.not_eq_true',
      Bool.and_eq_false_iff] at h
    simp only [splitNNGo]
    rw [if_neg (by simp)]
    rw [if_neg ?hcond]
    case hcond =>
      intro hcontra
      rcases h.1 with h1 | h1
      · simp [h1] at hcontra
      · simp [h1] at hcontra
    rw [ih h.2]

/-- In separator-skipping state, a run of newlines followed by text not
starting with a newline is consumed entirely. -/
theorem splitNNGoSkips (s t : Str) (hs : ∀ x ∈ s, x = '\n')
    (ht : t.head? ≠ some '\n') :
    splitNNGo true (s ++ t) = splitNNGo false t := by
  induction s with
  | nil =>
    rw [List.nil_append]
    cases t with
    | nil => rfl
    | cons u t2 =>
      have hu : ¬(u = '\n') := by
        intro hcontra
        exact ht (by rw [hcontra]; rfl)
      simp only [splitNNGo]
      simp [hu]
  | cons x s2 ih =>
    have hx : x = '\n' := hs x (List.mem_cons_self x s2)
    subst hx
    rw [List.cons_append]
    have hstep : splitNNGo true ('\n' :: (s2 ++ t)) = splitNNGo true (s2 ++ t) := by
      simp only [splitNNGo]
      simp
    rw [hstep]
    exact ih (fun y hy => hs y (List.mem_cons_of_mem _ hy))

/-- Prepending a chunk and a separator to a text that does not begin with a
newline adds exactly one block in front. -/
theorem splitNNChunkSep (c s t : Str) (hnn : noNN c = true)
    (hlast : c.getLast? ≠ some '\n') (hs2 : 2 ≤ s.length)
    (hsall : ∀ x ∈ s, x = '\n') (hth : t.head? ≠ some '\n') :
    splitNNGo false (c ++ (s ++ t)) = c :: splitNNGo false t := by
  induction c with
  | nil =>
    rw [List.nil_append]
    match s, hs2 with
    | a :: b :: s2, hs2 =>
      have ha : a = '\n' := hsall a (List.mem_cons_self a _)
      have hb : b = '\n' := hsall b (List.mem_cons_of_mem a (List.mem_cons_self b _))
      subst ha hb
      rw [List.cons_append, List.cons_append]
      have h1 : splitNNGo false ('\n' :: '\n' :: (s2 ++ t))
          = [] :: splitNNGo true (s2 ++ t) := by
        simp only [splitNNGo]
        simp
      have h2 : ('\n' :: s2) ++ t = '\n' :: (s2 ++ t) := by simp
      have h3 := splitNNGoSkips ('\n' :: s2) t ?hall hth
      case hall =>
        intro y hy
        rcases List.mem_cons.mp hy with rfl | hy2
        · rfl
        · exact hsall y (List.mem_cons_of_mem _ (List.mem_cons_of_mem _ hy2))
      rw [h2] at h3
      rw [h1]
      have h4 : splitNNGo true (s2 ++ t)
          = splitNNGo true ('\n' :: (s2 ++ t)) := by
        simp only [splitNNGo]
        simp
      rw [h4, h3]
  | cons x c2 ih =>
    rw [List.cons_append]
    simp only [splitNNGo]
    rw [if_neg (by simp)]
    rw [if_neg ?hcond]
    case hcond =>
      intro hcontra
      have hx : x = '\n' := by
        by_contra hne2
        simp [hne2] at hcontra
      subst hx
      cases c2 with
      | nil => exact hlast (by simp)
      | cons y c3 =>
        have hy : ¬(y = '\n') := by
          simp only [noNN, Bool.and_eq_true, Bool.not_eq_true',
            Bool.and_eq_false_iff] at hnn
          rcases hnn.1 with h1 | h1
          · simp at h1
          · intro hcontra2
            rw [List.head?_cons, hcontra2] at h1
            simp at h1
        simp [hy] at hcontra
    have hnn2 : noNN c2 = true := by
      simp only [noNN, Bool.and_eq_true] at hnn
      exact hnn.2
    have hlast2 : c2.getLast? ≠ some '\n' := by
      cases c2 with
      | nil => simp
      | cons y c3 =>
        rw [List.getLast?_cons_cons] at hlast
        exact hlast
    rw [ih hnn2 hlast2]

/-- C5 as amended: on text assembled from chunks (nonempty, no consecutive
newlines, not bordered by newlines) separated by runs of two or more
newline characters (one or more blank lines), segmentation returns exactly
those chunks as blocks, each processed into its stripped non-blank lines:
the splitter breaks at every blank-line run, including a single blank
line. -/
theorem blankRunSegmentation (c : Str) (rest : List (Str × Str))
    (hc : goodChunkB c = true)
    (hrest : ∀ p ∈ rest, goodSepB p.1 = true ∧ goodChunkB p.2 = true) :
    segmentCore (altJoin c rest) = (c :: rest.map Prod.snd).map blockLines := by
  unfold segmentCore
  have hsplit : splitNN (altJoin c rest) = c :: rest.map Prod.snd := by
    induction rest generalizing c with
    | nil =>
      simp only [altJoin, List.map_nil]
      simp only [goodChunkB, Bool.and_eq_true] at hc
      exact splitNNGoNoNN c hc.1.1.1
    | cons p r ih =>
      obtain ⟨s, c2⟩ := p
      simp only [altJoin]
      simp only [goodChunkB, Bool.and_eq_true, decide_eq_true_eq] at hc
      have hp := hrest (s, c2) (List.mem_cons_self _ r)
      simp only [goodSepB, Bool.and_eq_true, decide_eq_true_eq,
        List.all_eq_true] at hp
      have hc2good : goodChunkB c2 = true := hp.2
      have hc2ne : c2 ≠ [] ∧ c2.head? ≠ some '\n' := by
        simp only [goodChunkB, Bool.and_eq_true, decide_eq_true_eq] at hc2good
        exact ⟨hc2good.1.1.2, hc2good.1.2⟩
      have hhead : (altJoin c2 r).head? = c2.head? := by
        cases r with
        | nil => rfl
        | cons q r2 =>
          obtain ⟨s3, c3⟩ := q
          simp only [altJoin]
          cases hc2 : c2 with
          | nil => exact absurd hc2 hc2ne.1
          | cons u u2 => rw [List.cons_append, List.head?_cons, List.head?_cons]
      unfold splitNN
      rw [splitNNChunkSep c s (altJoin c2 r) hc.1.1.1 hc.2 hp.1.1
        (fun x hx => hp.1.2 x hx)
        (by rw [hhead]; exact hc2ne.2)]
      rw [show splitNNGo false (altJoin c2 r) = splitNN (altJoin c2 r) from rfl]
      rw [ih c2 hc2good (fun q hq => hrest q (List.mem_cons_of_mem _ hq))]
      simp
  rw [hsplit]

/-- Witness for the amended C5. -/
theorem blankRunSegmentationWitness :
    segmentCore (altJoin "あい".toList [(['\n', '\n'], "bc".toList)])
      = ("あい".toList :: ([(['\n', '\n'], "bc".toList)].map Prod.snd)).map blockLines :=
  blankRunSegmentation "あい".toList [(['\n', '\n'], "bc".toList)]
    (by decide) (by decide)

def c5Doc : Str := "あい".toList ++ '\n' :: '\n' :: "ab".toList

/-- Counterexample to C5 as stated: two newlines form a single blank line,
yet the splitter starts a new block there, unlike the spec-version splitter
that breaks only at two or more blank lines. -/
theorem singleBlankLineSplits :
    (splitNN c5Doc).map blockLines = [["あい".toList], ["ab".toList]]
    ∧ (splitNNSpec c5Doc).map blockLines = [["あい".toList, "ab".toList]] := by decide

end MTDetection
